import Mathlib

/-!
Verification of the subtitle re-segmentation core of vibesub-server.

Shallow embedding of `app/common/services/process_ytsub.py` (token parsing,
sentence segmentation, LLM batch post-processing, span realignment, span
timing, SRT timestamp rendering, pipeline assembly) and of
`assign_time_ranges` from `app/common/services/translation.py`.

Machine integers are modelled as `Nat` (all times in the source are
non-negative milliseconds); Python `datetime` arithmetic in
`assign_time_ranges` is modelled with exact rationals (`ℚ`); Python string
operations are modelled over `List Char`; fallible code returns `Option`.
-/

/-- `Word` dataclass: a timed token (`text`, `start` in ms). -/
structure Word where
  text : String
  start : Nat
deriving DecidableEq

/-- `Sentence` dataclass: ordered words plus start/end times in ms.
`end` is a Lean keyword, so the field is named `endMs`. -/
structure Sentence where
  words : List Word
  start : Nat
  endMs : Nat
deriving DecidableEq

def dummyWord : Word := ⟨"", 0⟩

def dummySentence : Sentence := ⟨[], 0, 0⟩

/-- Python `" ".join(xs)`. -/
def joinSpace : List String → String
  | [] => ""
  | [t] => t
  | t :: ts => t ++ " " ++ joinSpace ts

/-- `Sentence.as_text`: `" ".join(w.text for w in self.words)`. -/
def Sentence.as_text (s : Sentence) : String :=
  joinSpace (s.words.map (fun w => w.text))

/-- Python `str.strip()`: drop leading and trailing whitespace. -/
def strTrim (s : String) : String :=
  String.mk ((((s.data.dropWhile Char.isWhitespace).reverse).dropWhile Char.isWhitespace).reverse)

/-- Accumulator pass of Python `str.split()` (split on whitespace runs,
dropping empty pieces). -/
def splitWsGo : List Char → List Char → List String
  | [], acc => if acc.isEmpty then [] else [String.mk acc.reverse]
  | c :: rest, acc =>
    if c.isWhitespace then
      if acc.isEmpty then splitWsGo rest []
      else String.mk acc.reverse :: splitWsGo rest []
    else splitWsGo rest (c :: acc)

/-- Python `str.split()` with no argument. -/
def splitWs (s : String) : List String := splitWsGo s.data []

/-- Accumulator pass of Python `str.split("###")`: left-to-right,
non-overlapping occurrences of the three-hash separator. -/
def splitHashesGo : List Char → List Char → List String
  | [], acc => [String.mk acc.reverse]
  | '#' :: '#' :: '#' :: rest, acc => String.mk acc.reverse :: splitHashesGo rest []
  | c :: rest, acc => splitHashesGo rest (c :: acc)

/-- Python `segmented_text.split("###")`. -/
def splitHashes (s : String) : List String := splitHashesGo s.data []

/-- `TOKEN_CLEAN = re.compile(r"[^\w\s]")` character class `[\w\s]`
(ASCII reading of `\w`). -/
def isWordOrSpace (c : Char) : Bool := c.isAlphanum || c = '_' || c.isWhitespace

/-- `TOKEN_CLEAN.sub("", s.lower())`: lower-case then strip every
non-word, non-whitespace character. -/
def cleanTok (s : String) : String :=
  String.mk ((s.data.map Char.toLower).filter isWordOrSpace)

/- ──────────────── parse_json3, "words" branch ──────────────── -/

/-- The `"words"` loop of `parse_json3`: skip whitespace-only entries,
accumulate the per-entry `tOffsetMs` deltas into an absolute cursor. -/
def parse_words_go : Nat → List (String × Nat) → List Word
  | _, [] => []
  | t, (txt, off) :: rest =>
    if strTrim txt = "" then parse_words_go t rest
    else ⟨strTrim txt, t + off⟩ :: parse_words_go (t + off) rest

/-- Stable insertion of a word into a start-sorted list (a word goes in
front of the first word with a start not smaller than its own). -/
def insertWordByStart (x : Word) : List Word → List Word
  | [] => [x]
  | y :: ys => if x.start ≤ y.start then x :: y :: ys else y :: insertWordByStart x ys

/-- Stable sort by `start`, modelling Python's stable `list.sort(key=...)`. -/
def sortWordsByStart : List Word → List Word
  | [] => []
  | x :: xs => insertWordByStart x (sortWordsByStart xs)

/-- `parse_json3` restricted to the word-based (`"words"` key) input shape:
entries are (text, offset-delta) pairs; final `words.sort(key=start)`. -/
def parse_json3_words (entries : List (String × Nat)) : List Word :=
  sortWordsByStart (parse_words_go 0 entries)

/- ──────────────── initial_sentences ──────────────── -/

/-- `PUNCT = re.compile(r"[.!?]$")` applied with `.search`: the token's
last character is `.`, `!` or `?`. -/
def endsPunct (t : String) : Bool :=
  match t.data.getLast? with
  | some c => c = '.' || c = '!' || c = '?'
  | none => false

/-- The buffer loop of `initial_sentences`. A sentence is flushed when the
current word ends in terminal punctuation or is the last word; a flushed
non-final sentence ends at the following word's start, the final sentence
at its last word's start plus 800 ms. -/
def initial_sentences_go (buff : List Word) : List Word → List Sentence
  | [] => []
  | [w] => [⟨buff ++ [w], ((buff ++ [w]).headD dummyWord).start, w.start + 800⟩]
  | w :: next :: rest =>
    if endsPunct w.text then
      ⟨buff ++ [w], ((buff ++ [w]).headD dummyWord).start, next.start⟩
        :: initial_sentences_go [] (next :: rest)
    else
      initial_sentences_go (buff ++ [w]) (next :: rest)

/-- `initial_sentences` from `process_ytsub.py`. -/
def initial_sentences (words : List Word) : List Sentence :=
  initial_sentences_go [] words

example : initial_sentences [⟨"Hi.", 0⟩, ⟨"Go", 100⟩, ⟨"on!", 200⟩] =
    [⟨[⟨"Hi.", 0⟩], 0, 100⟩, ⟨[⟨"Go", 100⟩, ⟨"on!", 200⟩], 100, 1000⟩] := by decide

example : parse_json3_words [("Hello", 0), ("world", 500), ("this", 1000)] =
    [⟨"Hello", 0⟩, ⟨"world", 500⟩, ⟨"this", 1500⟩] := by decide

example : cleanTok "Test." = "test" := by decide

example : splitWs "  is  a test. " = ["is", "a", "test."] := by decide

example : splitHashes "Hello world this ### is a test." = ["Hello world this ", " is a test."] := by decide

/- ──────────────── seg_texts_to_spans ──────────────── -/

/-- `words_clean` in `seg_texts_to_spans`: each word of the sentence,
lower-cased and stripped of non-word characters. -/
def wordsClean (s : Sentence) : List String :=
  s.words.map (fun w => cleanTok w.text)

/-- `target` in `seg_texts_to_spans`: the segment split on whitespace,
each piece cleaned, the pieces re-joined by single spaces. -/
def targetOf (seg : String) : String :=
  joinSpace (((splitWs seg).filter (fun t => t ≠ "")).map cleanTok)

/-- `" ".join(words_clean[i:j+1])`: the candidate window of the sliding
search, inclusive on both ends. -/
def windowJoin (wc : List String) (i j : Nat) : String :=
  joinSpace ((wc.drop i).take (j + 1 - i))

/-- Inner loop `for j in range(i, len(words_clean))` of the sliding-window
search: first `j ≥ i` whose window `words_clean[i:j+1]` joins to `target`.
The fuel argument counts the remaining iterations (`len - j`). -/
def findJ (wc : List String) (target : String) (i : Nat) : Nat → Nat → Option Nat
  | _, 0 => none
  | j, f + 1 =>
    if windowJoin wc i j = target then some j
    else findJ wc target i (j + 1) f

/-- Outer loop `for i in range(ptr, len(words_clean))`: first window at or
after `ptr` whose join equals `target`, scanning start positions upward.
The fuel argument counts the remaining iterations (`len - i`). -/
def findI (wc : List String) (target : String) : Nat → Nat → Option (Nat × Nat)
  | _, 0 => none
  | i, f + 1 =>
    match findJ wc target i i (wc.length - i) with
    | some j => some (i, j)
    | none => findI wc target (i + 1) f

/-- The per-segment loop of `seg_texts_to_spans`: empty `target` raises
(`none`); a failed window search raises (`none`); otherwise the found span
is recorded and `ptr` advances to one past its end. -/
def spansGo (wc : List String) : Nat → List String → Option (List (Nat × Nat))
  | _, [] => some []
  | ptr, seg :: rest =>
    if targetOf seg = "" then none
    else
      match findI wc (targetOf seg) ptr (wc.length - ptr) with
      | none => none
      | some (i, j) => (spansGo wc (j + 1) rest).map (fun sp => (i, j) :: sp)

/-- `seg_texts_to_spans`: map segment texts to inclusive token-index spans;
`none` models the `ValueError` raised on empty or unalignable segments. -/
def seg_texts_to_spans (s : Sentence) (segments : List String) : Option (List (Nat × Nat)) :=
  spansGo (wordsClean s) 0 segments

/-- The pointer state of `seg_texts_to_spans` after successfully consuming
a prefix of the segment list (used to state where the search resumes). -/
def spansGoPtr (wc : List String) : Nat → List String → Option Nat
  | ptr, [] => some ptr
  | ptr, seg :: rest =>
    if targetOf seg = "" then none
    else
      match findI wc (targetOf seg) ptr (wc.length - ptr) with
      | none => none
      | some (_, j) => spansGoPtr wc (j + 1) rest

/- ──────────────── spans_to_subs ──────────────── -/

/-- `words[s_i:e_i+1]` for a span. -/
def segWordsOf (s : Sentence) (p : Nat × Nat) : List Word :=
  (s.words.drop p.1).take (p.2 + 1 - p.1)

/-- `seg_words[0].start` (totalised with a dummy for the empty slice the
Python code would crash on). -/
def startOfSeg (ws : List Word) : Nat := (ws.headD dummyWord).start

/-- `sentence.words[i].start` (totalised with a dummy). -/
def wstart (s : Sentence) (i : Nat) : Nat := (s.words.getD i dummyWord).start

/-- The indexed loop of `spans_to_subs`: a non-final span ends at
`max(start + min_duration, next_start - 1)` where `next_start` is the
start of the next span's first word; the final span ends at the
sentence's own end. -/
def spansToSubsGo (s : Sentence) (minDur : Nat) : List (Nat × Nat) → List Sentence
  | [] => []
  | [p] => [⟨segWordsOf s p, startOfSeg (segWordsOf s p), s.endMs⟩]
  | p :: q :: rest =>
    ⟨segWordsOf s p, startOfSeg (segWordsOf s p),
      max (startOfSeg (segWordsOf s p) + minDur) (wstart s q.1 - 1)⟩
      :: spansToSubsGo s minDur (q :: rest)

/-- `spans_to_subs`: an empty span list returns the sentence unchanged. -/
def spans_to_subs (s : Sentence) (spans : List (Nat × Nat)) (minDur : Nat) : List Sentence :=
  if spans.isEmpty then [s] else spansToSubsGo s minDur spans

example : seg_texts_to_spans ⟨[⟨"Hello", 0⟩, ⟨"world", 500⟩, ⟨"this", 1500⟩, ⟨"is", 2800⟩, ⟨"a", 4300⟩, ⟨"test.", 6000⟩], 0, 6800⟩ ["Hello world this", "is a test."] = some [(0, 2), (3, 5)] := by decide

/- ──────────────── ms_to_srt ──────────────── -/

/-- Python `f"{n:02}"`. -/
def padZero2 (n : Nat) : String := if n < 10 then "0" ++ toString n else toString n

/-- Python `f"{n:03}"`. -/
def padZero3 (n : Nat) : String :=
  if n < 10 then "00" ++ toString n
  else if n < 100 then "0" ++ toString n
  else toString n

/-- `ms_to_srt`: `timedelta(milliseconds=ms)` normalises to
`seconds = (ms // 1000) % 86400` (whole days are dropped) and
`microseconds = (ms % 1000) * 1000`; then `divmod` renders
`HH:MM:SS,mmm`. -/
def ms_to_srt (ms : Nat) : String :=
  padZero2 ((ms / 1000) % 86400 / 3600) ++ ":" ++
    padZero2 ((ms / 1000) % 86400 % 3600 / 60) ++ ":" ++
    padZero2 ((ms / 1000) % 86400 % 3600 % 60) ++ "," ++
    padZero3 (ms % 1000)

/-- The exact `HH:MM:SS,mmm` decomposition of a millisecond count, as the
specification describes it (hours not reduced modulo 24). This definition
follows the spec's words, for comparison with `ms_to_srt`. -/
def srt_spec (ms : Nat) : String :=
  padZero2 (ms / 3600000) ++ ":" ++ padZero2 (ms / 60000 % 60) ++ ":" ++
    padZero2 (ms / 1000 % 60) ++ "," ++ padZero3 (ms % 1000)

example : ms_to_srt 3661001 = "01:01:01,001" := by decide

example : ms_to_srt 86400000 = "00:00:00,000" := by decide

/- ──────────────── call_llm_batch post-processing ──────────────── -/

/-- Splitting one returned text into segments: with the `###` separator
present, split on it, strip each piece and drop empty pieces; without it,
the stripped whole text (or nothing, when it strips to empty). -/
def segmentsOf (t : String) : List String :=
  if 1 < (splitHashes t).length then
    ((splitHashes t).map strTrim).filter (fun x => x ≠ "")
  else if strTrim t = "" then []
  else [strTrim t]

/-- Python dict assignment `d[k] = v`: overwrite an existing key in place,
otherwise append (insertion order preserved). -/
def dinsert (d : List (String × List String)) (k : String) (v : List String) :
    List (String × List String) :=
  if d.any (fun p => p.1 = k) then d.map (fun p => if p.1 = k then (k, v) else p)
  else d ++ [(k, v)]

/-- Python `dict.get(k)`. -/
def dget (d : List (String × List String)) (k : String) : Option (List String) :=
  (d.find? (fun p => p.1 = k)).map (fun p => p.2)

/-- The local result handling of `call_llm_batch`: pair request texts with
returned texts strictly by position (`zip` truncates to the shorter list)
and key the segment lists by original sentence text. -/
def call_llm_post (sentence_texts results : List String) : List (String × List String) :=
  (sentence_texts.zip results).foldl (fun d p => dinsert d p.1 (segmentsOf p.2)) []

/-- Whether `call_llm_batch` emits its count-mismatch warning
(`len(results) != len(sentence_texts)`). -/
def call_llm_warned (sentence_texts results : List String) : Bool :=
  results.length ≠ sentence_texts.length

/- ──────────────── process_ytsub assembly ──────────────── -/

/-- Per-long-sentence step of `process_ytsub` (③): a sentence whose text the
batch mapping lacks, or maps to no segments, or whose alignment raises, is
kept as its single original self; otherwise it is replaced by the realigned
splits. -/
def processOne (mapping : List (String × List String)) (minDur : Nat) (s : Sentence) :
    List Sentence :=
  match dget mapping s.as_text with
  | none => [s]
  | some segs =>
    if segs.isEmpty then [s]
    else
      match seg_texts_to_spans s segs with
      | none => [s]
      | some spans => spans_to_subs s spans minDur

/-- `chunks(lst, size)` generator, fuelled structurally (`size ≥ 1` makes
the fuel `lst.length` sufficient). -/
def chunksGo (size : Nat) : Nat → List Nat → List (List Nat)
  | 0, _ => []
  | _ + 1, [] => []
  | f + 1, l => l.take size :: chunksGo size f (l.drop size)

/-- `chunks` from `process_ytsub.py`. -/
def chunks (l : List Nat) (size : Nat) : List (List Nat) := chunksGo size l.length l

/-- `long_map.get(i)`. -/
def dgetNat (d : List (Nat × List Sentence)) (k : Nat) : Option (List Sentence) :=
  (d.find? (fun p => p.1 = k)).map (fun p => p.2)

/-- Stable insertion of a sentence into a start-sorted list. -/
def insertSentenceByStart (x : Sentence) : List Sentence → List Sentence
  | [] => [x]
  | y :: ys => if x.start ≤ y.start then x :: y :: ys else y :: insertSentenceByStart x ys

/-- Stable sort by `start`, modelling `final_subs.sort(key=lambda x: x.start)`. -/
def sortSentencesByStart : List Sentence → List Sentence
  | [] => []
  | x :: xs => insertSentenceByStart x (sortSentencesByStart xs)

/-- Steps ②–⑤ of `process_ytsub`, with the external splitter abstracted as a
function from the batch's sentence texts to its returned texts: segment into
sentences, batch the long ones, post-process each batch's response, realign
and re-time per sentence with fallbacks, then merge and stably sort by
start time. -/
def pipelineSubs (ws : List Word) (maxWords chunkSize minDur : Nat)
    (llm : List String → List String) : List Sentence :=
  let sentences := initial_sentences ws
  let longIdx := (List.range sentences.length).filter
    (fun i => decide (maxWords < (sentences.getD i dummySentence).words.length))
  let lm := ((chunks longIdx chunkSize).map (fun group =>
    let texts := group.map (fun i => (sentences.getD i dummySentence).as_text)
    let mapping := call_llm_post texts (llm texts)
    group.map (fun idx => (idx, processOne mapping minDur (sentences.getD idx dummySentence))))).flatten
  let finalRaw := ((List.range sentences.length).map
    (fun i => (dgetNat lm i).getD [sentences.getD i dummySentence])).flatten
  sortSentencesByStart finalRaw

/- ──────────────── assign_time_ranges (translation.py) ──────────────── -/

/-- The allocation loop of `assign_time_ranges`: each segment's interval
starts at the running cursor and lasts `len(seg) * per_char_duration`; the
cursor advances to the interval's end. -/
def assignGo (perChar : ℚ) : ℚ → List String → List (ℚ × ℚ × String)
  | _, [] => []
  | cur, seg :: rest =>
    (cur, cur + (seg.length : ℚ) * perChar, seg)
      :: assignGo perChar (cur + (seg.length : ℚ) * perChar) rest

/-- `assign_time_ranges` from `translation.py`, with `datetime` arithmetic
modelled by exact rationals: zero total characters yields an empty list
(after a logged warning) instead of raising on the division. -/
def assign_time_ranges (startTime endTime : ℚ) (segments : List String) :
    List (ℚ × ℚ × String) :=
  if (segments.map String.length).sum = 0 then []
  else
    assignGo ((endTime - startTime) / (((segments.map String.length).sum : Nat) : ℚ))
      startTime segments

example : assign_time_ranges 0 1000 ["abcd", "abcdef"] =
    [(0, 400, "abcd"), (400, 1000, "abcdef")] := by
  have h4 : "abcd".length = 4 := rfl
  have h6 : "abcdef".length = 6 := rfl
  norm_num [assign_time_ranges, assignGo, h4, h6]

/- ──────────────── lemmas on the sliding-window search ──────────────── -/

theorem findJ_eq_some {wc : List String} {t : String} {i : Nat} :
    ∀ {f j j' : Nat}, findJ wc t i j f = some j' →
      j ≤ j' ∧ windowJoin wc i j' = t := by
  intro f
  induction f with
  | zero => intro j j' h; simp [findJ] at h
  | succ f ih =>
    intro j j' h
    rw [findJ] at h
    by_cases hw : windowJoin wc i j = t
    · simp [hw] at h
      exact ⟨Nat.le_of_eq h, h ▸ hw⟩
    · simp [hw] at h
      rcases ih h with ⟨h1, h2⟩
      exact ⟨Nat.le_of_succ_le h1, h2⟩

theorem findI_eq_some {wc : List String} {t : String} :
    ∀ {f i i' j' : Nat}, findI wc t i f = some (i', j') →
      i ≤ i' ∧ i' ≤ j' ∧ windowJoin wc i' j' = t := by
  intro f
  induction f with
  | zero => intro i i' j' h; simp [findI] at h
  | succ f ih =>
    intro i i' j' h
    rw [findI] at h
    cases hj : findJ wc t i i (wc.length - i) with
    | some j =>
      rw [hj] at h
      simp at h
      rcases findJ_eq_some hj with ⟨h1, h2⟩
      exact ⟨Nat.le_of_eq h.1, h.1 ▸ h.2 ▸ h1, h.1 ▸ h.2 ▸ h2⟩
    | none =>
      rw [hj] at h
      rcases ih h with ⟨h1, h2, h3⟩
      exact ⟨Nat.le_of_succ_le h1, h2, h3⟩

theorem spansGo_zip {wc : List String} :
    ∀ {segs : List String} {ptr : Nat} {spans : List (Nat × Nat)},
      spansGo wc ptr segs = some spans →
      spans.length = segs.length ∧
        ∀ p ∈ spans.zip segs, windowJoin wc p.1.1 p.1.2 = targetOf p.2 := by
  intro segs
  induction segs with
  | nil =>
    intro ptr spans h
    simp [spansGo] at h
    simp [h.symm]
  | cons seg rest ih =>
    intro ptr spans h
    rw [spansGo] at h
    by_cases ht : targetOf seg = ""
    · simp [ht] at h
    · simp only [if_neg ht] at h
      cases hf : findI wc (targetOf seg) ptr (wc.length - ptr) with
      | none => rw [hf] at h; simp at h
      | some ij =>
        rw [hf] at h
        obtain ⟨i, j⟩ := ij
        simp only [Option.map_eq_some'] at h
        rcases h with ⟨sp', hsp', hcons⟩
        rcases ih hsp' with ⟨hlen, hall⟩
        subst hcons
        refine ⟨by simp [hlen], ?_⟩
        intro p hp
        rw [List.zip_cons_cons] at hp
        rcases List.mem_cons.mp hp with h1 | h2
        · rcases findI_eq_some hf with ⟨_, _, hw⟩
          rw [h1]
          exact hw
        · exact hall p h2

theorem spansGo_mono {wc : List String} :
    ∀ {segs : List String} {ptr : Nat} {spans : List (Nat × Nat)},
      spansGo wc ptr segs = some spans →
      (∀ p ∈ spans, ptr ≤ p.1 ∧ p.1 ≤ p.2) ∧
        List.Chain' (fun p q => p.2 < q.1) spans := by
  intro segs
  induction segs with
  | nil =>
    intro ptr spans h
    simp [spansGo] at h
    subst h
    simp
  | cons seg rest ih =>
    intro ptr spans h
    rw [spansGo] at h
    by_cases ht : targetOf seg = ""
    · simp [ht] at h
    · simp only [if_neg ht] at h
      cases hf : findI wc (targetOf seg) ptr (wc.length - ptr) with
      | none => rw [hf] at h; simp at h
      | some ij =>
        rw [hf] at h
        obtain ⟨i, j⟩ := ij
        simp only [Option.map_eq_some'] at h
        rcases h with ⟨sp', hsp', hcons⟩
        rcases ih hsp' with ⟨hmem, hchain⟩
        rcases findI_eq_some hf with ⟨hpi, hij, _⟩
        subst hcons
        constructor
        · intro p hp
          rcases List.mem_cons.mp hp with h1 | h2
          · rw [h1]; exact ⟨hpi, hij⟩
          · rcases hmem p h2 with ⟨hm1, hm2⟩
            exact ⟨Nat.le_trans hpi (Nat.le_trans hij (Nat.le_trans (Nat.le_succ j) hm1)), hm2⟩
        · refine List.chain'_cons'.mpr ⟨?_, hchain⟩
          intro q hq
          have hqmem : q ∈ sp' := List.mem_of_mem_head? hq
          exact Nat.lt_of_succ_le (hmem q hqmem).1



/- ──────────────── C2 and C3 ──────────────── -/

/-- C2: on every successful run of `seg_texts_to_spans`, the spans pair
with the segments in order, and for each pair the space-joined
normalization of the sentence's tokens `i` through `j` equals the
space-joined normalization of that segment's words — no word lost, gained,
or reordered. -/
theorem seg_texts_to_spans_round_trip (s : Sentence) (segments : List String)
    (spans : List (Nat × Nat)) (h : seg_texts_to_spans s segments = some spans) :
    spans.length = segments.length ∧
      ((spans.zip segments).all
        (fun p => decide (windowJoin (wordsClean s) p.1.1 p.1.2 = targetOf p.2))) = true := by
  rcases spansGo_zip h with ⟨hlen, hall⟩
  refine ⟨hlen, ?_⟩
  rw [List.all_eq_true]
  intro p hp
  exact decide_eq_true (hall p hp)

theorem seg_texts_to_spans_round_trip_witness :
    seg_texts_to_spans ⟨[⟨"Hello", 0⟩, ⟨"world", 500⟩], 0, 1300⟩ ["Hello", "world"] =
        some [(0, 0), (1, 1)] ∧
      ([((0, 0), "Hello"), ((1, 1), "world")].length = 2 ∧
        (([((0, 0), "Hello"), ((1, 1), "world")] : List ((Nat × Nat) × String)).all
          (fun p => decide (windowJoin (wordsClean ⟨[⟨"Hello", 0⟩, ⟨"world", 500⟩], 0, 1300⟩)
            p.1.1 p.1.2 = targetOf p.2))) = true) :=
  ⟨by decide, by
    have h := seg_texts_to_spans_round_trip ⟨[⟨"Hello", 0⟩, ⟨"world", 500⟩], 0, 1300⟩
      ["Hello", "world"] [(0, 0), (1, 1)] (by decide)
    simpa using h⟩

/-- C3: on every successful run of `seg_texts_to_spans`, every returned
span `(s, e)` satisfies `s ≤ e`, and consecutive spans satisfy
`e₁ < s₂`: the spans are strictly increasing and never overlap or move
backward. -/
theorem seg_texts_to_spans_monotone (s : Sentence) (segments : List String)
    (spans : List (Nat × Nat)) (h : seg_texts_to_spans s segments = some spans) :
    (spans.all (fun p => decide (p.1 ≤ p.2))) = true ∧
      List.Chain' (fun p q => p.2 < q.1) spans := by
  rcases spansGo_mono h with ⟨hmem, hchain⟩
  refine ⟨?_, hchain⟩
  rw [List.all_eq_true]
  intro p hp
  exact decide_eq_true (hmem p hp).2

theorem seg_texts_to_spans_monotone_witness :
    seg_texts_to_spans ⟨[⟨"Hello", 0⟩, ⟨"world", 500⟩], 0, 1300⟩ ["Hello", "world"] =
        some [(0, 0), (1, 1)] ∧
      (([(0, 0), (1, 1)] : List (Nat × Nat)).all (fun p => decide (p.1 ≤ p.2))) = true ∧
      List.Chain' (fun p q => p.2 < q.1) ([(0, 0), (1, 1)] : List (Nat × Nat)) :=
  ⟨by decide, by
    have h := seg_texts_to_spans_monotone ⟨[⟨"Hello", 0⟩, ⟨"world", 500⟩], 0, 1300⟩
      ["Hello", "world"] [(0, 0), (1, 1)] (by decide)
    exact ⟨h.1, h.2⟩⟩

/- ──────────────── C4 ──────────────── -/

theorem spansGoPtr_append_none {wc : List String} :
    ∀ {pre : List String} {ptr p : Nat} {post : List String},
      spansGoPtr wc ptr pre = some p → spansGo wc p post = none →
      spansGo wc ptr (pre ++ post) = none := by
  intro pre
  induction pre with
  | nil =>
    intro ptr p post h hpost
    simp [spansGoPtr] at h
    subst h
    simpa using hpost
  | cons seg pre' ih =>
    intro ptr p post h hpost
    rw [spansGoPtr] at h
    by_cases ht : targetOf seg = ""
    · simp [ht] at h
    · simp only [if_neg ht] at h
      cases hf : findI wc (targetOf seg) ptr (wc.length - ptr) with
      | none => rw [hf] at h; simp at h
      | some ij =>
        rw [hf] at h
        obtain ⟨i, j⟩ := ij
        have h' : spansGoPtr wc (j + 1) pre' = some p := h
        rw [List.cons_append, spansGo, if_neg ht, hf]
        show Option.map (fun sp => (i, j) :: sp) (spansGo wc (j + 1) (pre' ++ post)) = none
        rw [ih h' hpost]
        rfl

/-- C4: when, after successfully aligning the first `k` segments (pointer
at `p`), no window of consecutive normalized tokens from `p` onward matches
segment `k`, `seg_texts_to_spans` errors out for the whole sentence
(`none`, never a partial span list), and the caller keeps the sentence as
its single original unsplit self with its original timing. -/
theorem seg_texts_to_spans_failure_unsplit (s : Sentence) (segments : List String)
    (mapping : List (String × List String)) (minDur k p : Nat)
    (hm : dget mapping s.as_text = some segments)
    (hk : k < segments.length)
    (hpre : spansGoPtr (wordsClean s) 0 (segments.take k) = some p)
    (hfail : findI (wordsClean s) (targetOf (segments.getD k ""))
      p ((wordsClean s).length - p) = none) :
    seg_texts_to_spans s segments = none ∧ processOne mapping minDur s = [s] := by
  have hdrop : segments.drop k = segments.getD k "" :: segments.drop (k + 1) := by
    rw [List.getD_eq_getElem segments "" hk]
    exact List.drop_eq_getElem_cons hk
  have hnone : spansGo (wordsClean s) p (segments.drop k) = none := by
    rw [hdrop, spansGo]
    by_cases ht : targetOf (segments.getD k "") = ""
    · rw [if_pos ht]
    · rw [if_neg ht, hfail]
  have hseg : seg_texts_to_spans s segments = none := by
    have := spansGoPtr_append_none hpre hnone
    rwa [List.take_append_drop] at this
  have hne : ¬segments.isEmpty = true := by
    have : segments ≠ [] := List.ne_nil_of_length_pos (Nat.lt_of_le_of_lt (Nat.zero_le k) hk)
    simpa [List.isEmpty_iff]
  refine ⟨hseg, ?_⟩
  have step : processOne mapping minDur s =
      if segments.isEmpty = true then [s]
      else
        match seg_texts_to_spans s segments with
        | none => [s]
        | some spans => spans_to_subs s spans minDur := by
    unfold processOne
    rw [hm]
  rw [step, if_neg hne, hseg]

theorem seg_texts_to_spans_failure_unsplit_witness :
    dget [("hello world.", ["goodbye"])] (Sentence.as_text ⟨[⟨"hello", 0⟩, ⟨"world.", 100⟩], 0, 900⟩) =
        some ["goodbye"] ∧
      0 < (["goodbye"] : List String).length ∧
      spansGoPtr (wordsClean ⟨[⟨"hello", 0⟩, ⟨"world.", 100⟩], 0, 900⟩) 0
        ((["goodbye"] : List String).take 0) = some 0 ∧
      findI (wordsClean ⟨[⟨"hello", 0⟩, ⟨"world.", 100⟩], 0, 900⟩)
        (targetOf ((["goodbye"] : List String).getD 0 "")) 0
        ((wordsClean ⟨[⟨"hello", 0⟩, ⟨"world.", 100⟩], 0, 900⟩).length - 0) = none ∧
      (seg_texts_to_spans ⟨[⟨"hello", 0⟩, ⟨"world.", 100⟩], 0, 900⟩ ["goodbye"] = none ∧
        processOne [("hello world.", ["goodbye"])] 100 ⟨[⟨"hello", 0⟩, ⟨"world.", 100⟩], 0, 900⟩ =
          [⟨[⟨"hello", 0⟩, ⟨"world.", 100⟩], 0, 900⟩]) :=
  ⟨by decide, by decide, by decide, by decide,
    seg_texts_to_spans_failure_unsplit ⟨[⟨"hello", 0⟩, ⟨"world.", 100⟩], 0, 900⟩ ["goodbye"]
      [("hello world.", ["goodbye"])] 100 0 0 (by decide) (by decide) (by decide) (by decide)⟩

/- ──────────────── C1 ──────────────── -/

theorem dinsert_fst_subset {d : List (String × List String)} {k : String}
    {v : List String} {p : String × List String} (hp : p ∈ dinsert d k v) :
    p.1 ∈ d.map Prod.fst ∨ p.1 = k := by
  unfold dinsert at hp
  by_cases ha : d.any (fun q => q.1 = k)
  · rw [if_pos ha] at hp
    rcases List.mem_map.mp hp with ⟨q, hq, hpq⟩
    by_cases hqk : q.1 = k
    · rw [if_pos hqk] at hpq
      right
      rw [← hpq]
    · rw [if_neg hqk] at hpq
      left
      exact hpq ▸ List.mem_map_of_mem Prod.fst hq
  · rw [if_neg ha] at hp
    rcases List.mem_append.mp hp with h1 | h2
    · exact Or.inl (List.mem_map_of_mem Prod.fst h1)
    · right
      have : p = (k, v) := by simpa using h2
      rw [this]

theorem call_llm_post_keys {key : String} :
    ∀ (l : List (String × String)) (d : List (String × List String)),
      (∀ p ∈ d, p.1 ≠ key) → (∀ q ∈ l, q.1 ≠ key) →
      ∀ p ∈ l.foldl (fun d p => dinsert d p.1 (segmentsOf p.2)) d, p.1 ≠ key := by
  intro l
  induction l with
  | nil => intro d hd _ p hp; exact hd p hp
  | cons q l' ih =>
    intro d hd hl p hp
    rw [List.foldl_cons] at hp
    refine ih (dinsert d q.1 (segmentsOf q.2)) ?_ ?_ p hp
    · intro r hr
      rcases dinsert_fst_subset hr with h1 | h2
      · rcases List.mem_map.mp h1 with ⟨r', hr', hrr⟩
        exact hrr ▸ hd r' hr'
      · exact h2 ▸ hl q (List.mem_cons_self q l')
    · intro r hr
      exact hl r (List.mem_cons_of_mem q hr)

theorem zip_fst_take {α β : Type} :
    ∀ (l₁ : List α) (l₂ : List β), (l₁.zip l₂).map Prod.fst = l₁.take l₂.length := by
  intro l₁
  induction l₁ with
  | nil => intro l₂; simp
  | cons a l ih =>
    intro l₂
    cases l₂ with
    | nil => simp
    | cons b l' => simp [ih l']

/-- C1 (amended): when the splitter's returned list is shorter than the
batch, the count-mismatch warning fires and requests pair with results
strictly by position over the overlapping prefix; a sentence of the batch
beyond that prefix whose rendered text differs from every prefix
sentence's text receives no segment list and stays in the output as its
single original unsplit self with original timing (a beyond-prefix
sentence sharing its text with a prefix sentence would instead reuse that
sentence's segments, because results are keyed by text). -/
theorem call_llm_batch_mismatch_fallback (batch : List Sentence) (results : List String)
    (minDur k : Nat) (hk : k < batch.length) (hbey : results.length ≤ k)
    (hdist : (batch.getD k dummySentence).as_text ∉
      ((batch.map Sentence.as_text).take results.length)) :
    call_llm_warned (batch.map Sentence.as_text) results = true ∧
      dget (call_llm_post (batch.map Sentence.as_text) results)
        ((batch.getD k dummySentence).as_text) = none ∧
      processOne (call_llm_post (batch.map Sentence.as_text) results) minDur
        (batch.getD k dummySentence) = [batch.getD k dummySentence] := by
  have hwarn : call_llm_warned (batch.map Sentence.as_text) results = true := by
    apply decide_eq_true
    rw [List.length_map]
    exact Nat.ne_of_lt (Nat.lt_of_le_of_lt hbey hk)
  have hnone : dget (call_llm_post (batch.map Sentence.as_text) results)
      ((batch.getD k dummySentence).as_text) = none := by
    unfold dget
    rw [Option.map_eq_none', List.find?_eq_none]
    intro p hp
    have hzip : ∀ q ∈ (batch.map Sentence.as_text).zip results,
        q.1 ≠ (batch.getD k dummySentence).as_text := by
      intro q hq hqeq
      apply hdist
      rw [← hqeq, ← zip_fst_take (batch.map Sentence.as_text) results]
      exact List.mem_map_of_mem Prod.fst hq
    have hkey := call_llm_post_keys ((batch.map Sentence.as_text).zip results) []
      (by intro r hr; simp at hr) hzip p hp
    simpa using hkey
  refine ⟨hwarn, hnone, ?_⟩
  have step : processOne (call_llm_post (batch.map Sentence.as_text) results) minDur
      (batch.getD k dummySentence) = [batch.getD k dummySentence] := by
    unfold processOne
    rw [hnone]
  exact step

theorem call_llm_batch_mismatch_fallback_witness :
    1 < ([⟨[⟨"a.", 0⟩], 0, 100⟩, ⟨[⟨"b.", 100⟩], 100, 900⟩] : List Sentence).length ∧
      (["a."] : List String).length ≤ 1 ∧
      (([⟨[⟨"a.", 0⟩], 0, 100⟩, ⟨[⟨"b.", 100⟩], 100, 900⟩] : List Sentence).getD 1
          dummySentence).as_text ∉
        ((([⟨[⟨"a.", 0⟩], 0, 100⟩, ⟨[⟨"b.", 100⟩], 100, 900⟩] : List Sentence).map
          Sentence.as_text).take (["a."] : List String).length) ∧
      (call_llm_warned (([⟨[⟨"a.", 0⟩], 0, 100⟩, ⟨[⟨"b.", 100⟩], 100, 900⟩] : List Sentence).map
          Sentence.as_text) ["a."] = true ∧
        dget (call_llm_post (([⟨[⟨"a.", 0⟩], 0, 100⟩, ⟨[⟨"b.", 100⟩], 100, 900⟩] :
            List Sentence).map Sentence.as_text) ["a."])
          ((([⟨[⟨"a.", 0⟩], 0, 100⟩, ⟨[⟨"b.", 100⟩], 100, 900⟩] : List Sentence).getD 1
            dummySentence).as_text) = none ∧
        processOne (call_llm_post (([⟨[⟨"a.", 0⟩], 0, 100⟩, ⟨[⟨"b.", 100⟩], 100, 900⟩] :
            List Sentence).map Sentence.as_text) ["a."]) 100
          (([⟨[⟨"a.", 0⟩], 0, 100⟩, ⟨[⟨"b.", 100⟩], 100, 900⟩] : List Sentence).getD 1
            dummySentence) = [⟨[⟨"b.", 100⟩], 100, 900⟩]) :=
  ⟨by decide, by decide, by decide,
    call_llm_batch_mismatch_fallback [⟨[⟨"a.", 0⟩], 0, 100⟩, ⟨[⟨"b.", 100⟩], 100, 900⟩]
      ["a."] 100 1 (by decide) (by decide) (by decide)⟩

/-- Two word-for-word identical long sentences, used to exhibit the
text-keyed collision in the count-mismatch fallback. -/
def dupBatchWords : List Word := [⟨"go", 0⟩, ⟨"now.", 100⟩, ⟨"go", 200⟩, ⟨"now.", 300⟩]

/-- A splitter response holding one item for a two-item batch. -/
def dupBatchLlm : List String → List String := fun _ => ["go ### now."]

theorem call_llm_batch_mismatch_fallback_counterexample :
    call_llm_warned ["go now.", "go now."] (dupBatchLlm ["go now.", "go now."]) = true ∧
      pipelineSubs dupBatchWords 1 10 100 dupBatchLlm =
        [⟨[⟨"go", 0⟩], 0, 100⟩, ⟨[⟨"now.", 100⟩], 100, 200⟩,
          ⟨[⟨"go", 200⟩], 200, 300⟩, ⟨[⟨"now.", 300⟩], 300, 1100⟩] ∧
      ((pipelineSubs dupBatchWords 1 10 100 dupBatchLlm).all
        (fun f => decide (f.words ≠ [⟨"go", 200⟩, ⟨"now.", 300⟩]))) = true := by
  refine ⟨by decide, by decide, by decide⟩

/- ──────────────── C5 ──────────────── -/

theorem headD_take {α : Type} (l : List α) (k : Nat) (d : α) (hk : 1 ≤ k) :
    (l.take k).headD d = l.headD d := by
  cases l with
  | nil => simp
  | cons a t =>
    cases k with
    | zero => exact absurd hk (by simp)
    | succ k => simp [List.take]

theorem headD_drop {α : Type} :
    ∀ (l : List α) (i : Nat) (d : α), (l.drop i).headD d = l.getD i d := by
  intro l
  induction l with
  | nil => intro i d; cases i <;> simp
  | cons a t ih =>
    intro i d
    cases i with
    | zero => simp
    | succ i => exact ih i d

/-- The first word of a span's slice is the sentence word at the span's
start index (both sides fall back to the dummy out of range). -/
theorem startOfSeg_eq (s : Sentence) (p : Nat × Nat) (h : p.1 ≤ p.2) :
    startOfSeg (segWordsOf s p) = wstart s p.1 := by
  unfold startOfSeg segWordsOf wstart
  rw [headD_take _ _ _ (by omega), headD_drop]

theorem getLastD_of_ne_nil {α : Type} :
    ∀ (l : List α) (d d' : α), l ≠ [] → l.getLastD d = l.getLastD d' := by
  intro l d d' h
  rw [List.getLastD_eq_getLast?, List.getLastD_eq_getLast?]
  cases hl : l.getLast? with
  | some a => simp
  | none => exact absurd (List.getLast?_eq_none_iff.mp hl) h

theorem spansToSubsGo_spec (s : Sentence) (minDur : Nat) :
    ∀ spans : List (Nat × Nat), spans ≠ [] →
      (∀ p ∈ spans, p.1 ≤ p.2) →
      List.Chain' (fun p q => wstart s p.1 + minDur + 1 ≤ wstart s q.1) spans →
      wstart s ((spans.getLastD (0, 0)).1) ≤ s.endMs →
      (spansToSubsGo s minDur spans).length = spans.length ∧
        ((spansToSubsGo s minDur spans).headD dummySentence).start =
          wstart s ((spans.headD (0, 0)).1) ∧
        ((spansToSubsGo s minDur spans).getLastD dummySentence).endMs = s.endMs ∧
        List.Chain' (fun a b => a.endMs + 1 = b.start) (spansToSubsGo s minDur spans) ∧
        ∀ f ∈ spansToSubsGo s minDur spans, f.start ≤ f.endMs := by
  intro spans
  induction spans with
  | nil => intro h; exact absurd rfl h
  | cons p rest ih =>
    intro _ hvalid hchain hlast
    cases rest with
    | nil =>
      have hp : p.1 ≤ p.2 := hvalid p (List.mem_cons_self p [])
      refine ⟨rfl, ?_, ?_, ?_, ?_⟩
      · simpa [spansToSubsGo] using startOfSeg_eq s p hp
      · simp [spansToSubsGo]
      · simp [spansToSubsGo]
      · intro f hf
        rcases List.mem_singleton.mp (by simpa [spansToSubsGo] using hf) with hfp
        rw [hfp]
        show startOfSeg (segWordsOf s p) ≤ s.endMs
        rw [startOfSeg_eq s p hp]
        exact hlast
    | cons q rest' =>
      have hp : p.1 ≤ p.2 := hvalid p (List.mem_cons_self p (q :: rest'))
      have hq : q.1 ≤ q.2 := hvalid q (List.mem_cons_of_mem p (List.mem_cons_self q rest'))
      rcases List.chain'_cons.mp hchain with ⟨hpq, hchain'⟩
      have hlast' : wstart s (((q :: rest').getLastD (0, 0)).1) ≤ s.endMs := by
        rw [getLastD_of_ne_nil (q :: rest') (0, 0) p (by simp)]
        simpa [List.getLastD_cons] using hlast
      rcases ih (by simp) (fun r hr => hvalid r (List.mem_cons_of_mem p hr)) hchain' hlast'
        with ⟨ihlen, ihhead, ihlast, ihchain, ihmem⟩
      have hgo : spansToSubsGo s minDur (p :: q :: rest') =
          ⟨segWordsOf s p, startOfSeg (segWordsOf s p),
            max (startOfSeg (segWordsOf s p) + minDur) (wstart s q.1 - 1)⟩
            :: spansToSubsGo s minDur (q :: rest') := rfl
      have hne' : spansToSubsGo s minDur (q :: rest') ≠ [] := by
        have : (spansToSubsGo s minDur (q :: rest')).length = (q :: rest').length := ihlen
        intro hcontra
        rw [hcontra] at this
        simp at this
      have hmax : max (startOfSeg (segWordsOf s p) + minDur) (wstart s q.1 - 1) =
          wstart s q.1 - 1 := by
        rw [startOfSeg_eq s p hp]
        omega
      have hqpos : 1 ≤ wstart s q.1 := by
        have := hpq
        omega
      refine ⟨by simpa [hgo] using ihlen, ?_, ?_, ?_, ?_⟩
      · rw [hgo]
        simpa using startOfSeg_eq s p hp
      · rw [hgo, List.getLastD_cons,
          getLastD_of_ne_nil _ _ dummySentence hne']
        exact ihlast
      · rw [hgo]
        refine List.chain'_cons'.mpr ⟨?_, ihchain⟩
        intro b hb
        have hbhead : b = (spansToSubsGo s minDur (q :: rest')).headD dummySentence := by
          cases hgo' : spansToSubsGo s minDur (q :: rest') with
          | nil => exact absurd hgo' hne'
          | cons x xs =>
            rw [hgo'] at hb
            simp at hb
            simp [hb, hgo']
        show max (startOfSeg (segWordsOf s p) + minDur) (wstart s q.1 - 1) + 1 = b.start
        rw [hmax, hbhead, ihhead]
        simp only [List.headD_cons]
        omega
      · intro f hf
        rw [hgo] at hf
        rcases List.mem_cons.mp hf with hfp | hfm
        · rw [hfp]
          show startOfSeg (segWordsOf s p) ≤
            max (startOfSeg (segWordsOf s p) + minDur) (wstart s q.1 - 1)
          omega
        · exact ihmem f hfm

/-- C5 (amended): under valid, strictly advancing spans whose first span
begins at token 0, and when the minimum-duration floor does not engage,
the fragments produced by `spans_to_subs` tile the sentence interval with
closed intervals: the first fragment starts at `sentence.start`, each
fragment's `endMs` is exactly the next fragment's `start` minus 1 (so the
half-open `[start, endMs)` reading leaves a deliberate 1 ms hole before
each subsequent fragment), the last fragment ends at `sentence.endMs`,
and every fragment has `start ≤ endMs`. -/
theorem spans_to_subs_tiling (s : Sentence) (spans : List (Nat × Nat)) (minDur : Nat)
    (hne : spans ≠ [])
    (hvalid : ∀ p ∈ spans, p.1 ≤ p.2)
    (hfirst : (spans.headD (0, 0)).1 = 0)
    (hstart : s.start = wstart s 0)
    (hnofloor : List.Chain' (fun p q => wstart s p.1 + minDur + 1 ≤ wstart s q.1) spans)
    (hlast : wstart s ((spans.getLastD (0, 0)).1) ≤ s.endMs) :
    (spans_to_subs s spans minDur).length = spans.length ∧
      ((spans_to_subs s spans minDur).headD dummySentence).start = s.start ∧
      ((spans_to_subs s spans minDur).getLastD dummySentence).endMs = s.endMs ∧
      List.Chain' (fun a b => a.endMs + 1 = b.start) (spans_to_subs s spans minDur) ∧
      ((spans_to_subs s spans minDur).all (fun f => decide (f.start ≤ f.endMs))) = true := by
  have hsub : spans_to_subs s spans minDur = spansToSubsGo s minDur spans := by
    unfold spans_to_subs
    rw [if_neg (by simpa [List.isEmpty_iff] using hne)]
  rcases spansToSubsGo_spec s minDur spans hne hvalid hnofloor hlast
    with ⟨hlen, hhead, hlastE, hchain, hmem⟩
  refine ⟨hsub ▸ hlen, ?_, hsub ▸ hlastE, hsub ▸ hchain, ?_⟩
  · rw [hsub, hhead, hfirst, ← hstart]
  · rw [hsub, List.all_eq_true]
    intro f hf
    exact decide_eq_true (hmem f hf)

theorem spans_to_subs_tiling_witness :
    (([((0 : Nat), (0 : Nat)), ((1 : Nat), (1 : Nat))] : List (Nat × Nat)) ≠ [] ∧
      (∀ p ∈ ([(0, 0), (1, 1)] : List (Nat × Nat)), p.1 ≤ p.2) ∧
      (([(0, 0), (1, 1)] : List (Nat × Nat)).headD (0, 0)).1 = 0 ∧
      (⟨[⟨"hi", 0⟩, ⟨"there.", 1000⟩], 0, 1800⟩ : Sentence).start =
        wstart ⟨[⟨"hi", 0⟩, ⟨"there.", 1000⟩], 0, 1800⟩ 0 ∧
      List.Chain' (fun p q => wstart ⟨[⟨"hi", 0⟩, ⟨"there.", 1000⟩], 0, 1800⟩ p.1 + 100 + 1 ≤
        wstart ⟨[⟨"hi", 0⟩, ⟨"there.", 1000⟩], 0, 1800⟩ q.1) ([(0, 0), (1, 1)] : List (Nat × Nat)) ∧
      wstart ⟨[⟨"hi", 0⟩, ⟨"there.", 1000⟩], 0, 1800⟩
        ((([(0, 0), (1, 1)] : List (Nat × Nat)).getLastD (0, 0)).1) ≤
        (⟨[⟨"hi", 0⟩, ⟨"there.", 1000⟩], 0, 1800⟩ : Sentence).endMs) ∧
      ((spans_to_subs ⟨[⟨"hi", 0⟩, ⟨"there.", 1000⟩], 0, 1800⟩ [(0, 0), (1, 1)] 100).length = 2 ∧
        ((spans_to_subs ⟨[⟨"hi", 0⟩, ⟨"there.", 1000⟩], 0, 1800⟩ [(0, 0), (1, 1)] 100).headD
          dummySentence).start = 0 ∧
        ((spans_to_subs ⟨[⟨"hi", 0⟩, ⟨"there.", 1000⟩], 0, 1800⟩ [(0, 0), (1, 1)] 100).getLastD
          dummySentence).endMs = 1800 ∧
        List.Chain' (fun a b => a.endMs + 1 = b.start)
          (spans_to_subs ⟨[⟨"hi", 0⟩, ⟨"there.", 1000⟩], 0, 1800⟩ [(0, 0), (1, 1)] 100) ∧
        ((spans_to_subs ⟨[⟨"hi", 0⟩, ⟨"there.", 1000⟩], 0, 1800⟩ [(0, 0), (1, 1)] 100).all
          (fun f => decide (f.start ≤ f.endMs))) = true) :=
  ⟨⟨by decide, by decide, by decide, by decide,
      List.chain'_cons.mpr ⟨by decide, List.chain'_singleton _⟩, by decide⟩,
    spans_to_subs_tiling ⟨[⟨"hi", 0⟩, ⟨"there.", 1000⟩], 0, 1800⟩ [(0, 0), (1, 1)] 100
      (by decide) (by decide) (by decide) (by decide)
      (List.chain'_cons.mpr ⟨by decide, List.chain'_singleton _⟩) (by decide)⟩

theorem spans_to_subs_tiling_counterexample :
    spans_to_subs ⟨[⟨"hi", 0⟩, ⟨"there.", 1000⟩], 0, 1800⟩ [(0, 0), (1, 1)] 100 =
        [⟨[⟨"hi", 0⟩], 0, 999⟩, ⟨[⟨"there.", 1000⟩], 1000, 1800⟩] ∧
      ((⟨[⟨"hi", 0⟩, ⟨"there.", 1000⟩], 0, 1800⟩ : Sentence).start ≤ 999 ∧
        999 < (⟨[⟨"hi", 0⟩, ⟨"there.", 1000⟩], 0, 1800⟩ : Sentence).endMs) ∧
      ((spans_to_subs ⟨[⟨"hi", 0⟩, ⟨"there.", 1000⟩], 0, 1800⟩ [(0, 0), (1, 1)] 100).all
        (fun f => decide (¬(f.start ≤ 999 ∧ 999 < f.endMs)))) = true :=
  ⟨by decide, by decide, by decide⟩

/- ──────────────── C6 ──────────────── -/

/-- Scenario A's word-based input: (text, offset-delta) entries. -/
def scenarioEntries : List (String × Nat) :=
  [("Hello", 0), ("world", 500), ("this", 1000), ("is", 1300), ("a", 1500), ("test.", 1700)]

/-- Scenario A's splitter response for the single long sentence. -/
def scenarioLlm : List String → List String := fun _ => ["Hello world this ### is a test."]

theorem scenario_a_counterexample :
    ((pipelineSubs (parse_json3_words scenarioEntries) 3 10 100 scenarioLlm).map
        (fun f => (f.as_text, f.start, f.endMs))) =
      [("Hello world this", 0, 2799), ("is a test.", 2800, 6800)] ∧
      (decide (((pipelineSubs (parse_json3_words scenarioEntries) 3 10 100 scenarioLlm).map
        (fun f => (f.as_text, f.start, f.endMs))) =
          [("Hello world this", 0, 999), ("is a test.", 1000, 2500)])) = false :=
  ⟨by decide, by decide⟩

/-- C6 (amended): on Scenario A's word-based input with long-sentence
threshold 3 and the splitter returning "Hello world this ### is a test.",
the pipeline produces exactly two fragments ("Hello world this", 0, 2799)
and ("is a test.", 2800, 6800): word-based offsets are deltas, so the token
starts accumulate to 0, 500, 1500, 2800, 4300, 6000, the sentence ends at
6000 + 800 = 6800, and the first fragment ends 1 ms before the second
fragment's 2800 ms start. -/
theorem scenario_a_fragments :
    ((pipelineSubs (parse_json3_words scenarioEntries) 3 10 100 scenarioLlm).map
        (fun f => (f.as_text, f.start, f.endMs))) =
      [("Hello world this", 0, 2799), ("is a test.", 2800, 6800)] := by decide

/- ──────────────── C9 ──────────────── -/

theorem initial_sentences_go_partition :
    ∀ (l : List Word) (buff : List Word), l ≠ [] →
      ((initial_sentences_go buff l).map (fun s => s.words)).flatten = buff ++ l := by
  intro l
  induction l with
  | nil => intro buff h; exact absurd rfl h
  | cons w tl ih =>
    intro buff _
    cases tl with
    | nil => simp [initial_sentences_go]
    | cons next rest =>
      rw [initial_sentences_go]
      by_cases hp : endsPunct w.text
      · rw [if_pos hp]
        simp only [List.map_cons, List.flatten_cons]
        rw [ih [] (by simp)]
        simp
      · rw [if_neg hp]
        rw [ih (buff ++ [w]) (by simp)]
        simp

theorem initial_sentences_go_words_ne :
    ∀ (l : List Word) (buff : List Word), ∀ s ∈ initial_sentences_go buff l, s.words ≠ [] := by
  intro l
  induction l with
  | nil => intro buff s hs; simp [initial_sentences_go] at hs
  | cons w tl ih =>
    intro buff s hs
    cases tl with
    | nil =>
      simp only [initial_sentences_go, List.mem_singleton] at hs
      rw [hs]
      simp
    | cons next rest =>
      rw [initial_sentences_go] at hs
      by_cases hp : endsPunct w.text
      · rw [if_pos hp] at hs
        rcases List.mem_cons.mp hs with h1 | h2
        · rw [h1]; simp
        · exact ih [] s h2
      · rw [if_neg hp] at hs
        exact ih (buff ++ [w]) s hs

/-- C9: `initial_sentences` partitions its input exactly: concatenating
the sentences' word lists in order gives back the original word list (no
word dropped, duplicated, or reordered), and every produced sentence has a
non-empty word list. -/
theorem initial_sentences_partition (words : List Word) :
    ((initial_sentences words).map (fun s => s.words)).flatten = words ∧
      ((initial_sentences words).all (fun s => decide (s.words ≠ []))) = true := by
  constructor
  · cases hw : words with
    | nil => simp [initial_sentences, initial_sentences_go]
    | cons w tl =>
      have := initial_sentences_go_partition (w :: tl) [] (by simp)
      simpa [initial_sentences] using this
  · rw [List.all_eq_true]
    intro s hs
    exact decide_eq_true (initial_sentences_go_words_ne words [] s hs)

theorem initial_sentences_partition_witness :
    ((initial_sentences [⟨"Hi.", 0⟩, ⟨"Go", 100⟩, ⟨"on!", 200⟩]).map
        (fun s => s.words)).flatten = [⟨"Hi.", 0⟩, ⟨"Go", 100⟩, ⟨"on!", 200⟩] ∧
      ((initial_sentences [⟨"Hi.", 0⟩, ⟨"Go", 100⟩, ⟨"on!", 200⟩]).all
        (fun s => decide (s.words ≠ []))) = true :=
  initial_sentences_partition [⟨"Hi.", 0⟩, ⟨"Go", 100⟩, ⟨"on!", 200⟩]

/- ──────────────── C7 ──────────────── -/

theorem headD_mem {α : Type} (l : List α) (d : α) (h : l ≠ []) : l.headD d ∈ l := by
  cases l with
  | nil => exact absurd rfl h
  | cons a t => simp

theorem headD_append_single {α : Type} (buff : List α) (w d : α) (l : List α) :
    (buff ++ [w]).headD d = (buff ++ w :: l).headD d := by
  cases buff <;> simp

theorem initial_sentences_go_spec :
    ∀ (l : List Word) (buff : List Word), l ≠ [] →
      List.Pairwise (fun a b => a.start ≤ b.start) (buff ++ l) →
      initial_sentences_go buff l ≠ [] ∧
        ((initial_sentences_go buff l).headD dummySentence).words.headD dummyWord =
          (buff ++ l).headD dummyWord ∧
        (∀ s ∈ initial_sentences_go buff l,
          s.words ≠ [] ∧ s.start = (s.words.headD dummyWord).start ∧ s.start ≤ s.endMs) ∧
        List.Chain' (fun a b => a.endMs = (b.words.headD dummyWord).start)
          (initial_sentences_go buff l) ∧
        ((initial_sentences_go buff l).getLastD dummySentence).endMs =
          (((initial_sentences_go buff l).getLastD dummySentence).words.getLastD
            dummyWord).start + 800 := by
  intro l
  induction l with
  | nil => intro buff h; exact absurd rfl h
  | cons w tl ih =>
    intro buff _ hsor
    cases tl with
    | nil =>
      refine ⟨by simp [initial_sentences_go], rfl, ?_, ?_, ?_⟩
      · intro s hs
        simp only [initial_sentences_go, List.mem_singleton] at hs
        rw [hs]
        refine ⟨by simp, rfl, ?_⟩
        show ((buff ++ [w]).headD dummyWord).start ≤ w.start + 800
        have hmem : (buff ++ [w]).headD dummyWord ∈ buff ++ [w] :=
          headD_mem (buff ++ [w]) dummyWord (by simp)
        rcases List.mem_append.mp hmem with hb | hw
        · have := (List.pairwise_append.mp hsor).2.2 _ hb w (by simp)
          omega
        · have : (buff ++ [w]).headD dummyWord = w := by simpa using hw
          rw [this]
          omega
      · simp [initial_sentences_go]
      · have hone : (initial_sentences_go buff [w]).getLastD dummySentence =
            ⟨buff ++ [w], ((buff ++ [w]).headD dummyWord).start, w.start + 800⟩ := rfl
        rw [hone]
        show w.start + 800 = ((buff ++ [w]).getLastD dummyWord).start + 800
        rw [List.getLastD_concat]
    | cons next rest =>
      have hsor' : List.Pairwise (fun a b => a.start ≤ b.start)
          ((buff ++ [w]) ++ (next :: rest)) := by
        rw [← List.append_cons]
        exact hsor
      by_cases hp : endsPunct w.text
      · have hgo : initial_sentences_go buff (w :: next :: rest) =
            ⟨buff ++ [w], ((buff ++ [w]).headD dummyWord).start, next.start⟩
              :: initial_sentences_go [] (next :: rest) := by
          rw [initial_sentences_go, if_pos hp]
        rcases ih [] (by simp) (by simpa using (List.pairwise_append.mp hsor').2.1)
          with ⟨ihne, ihhead, ihmem, ihchain, ihlast⟩
        refine ⟨by rw [hgo]; simp, ?_, ?_, ?_, ?_⟩
        · rw [hgo]
          simp only [List.headD_cons]
          exact headD_append_single buff w dummyWord (next :: rest)
        · intro s hs
          rw [hgo] at hs
          rcases List.mem_cons.mp hs with h1 | h2
          · rw [h1]
            refine ⟨by simp, rfl, ?_⟩
            show ((buff ++ [w]).headD dummyWord).start ≤ next.start
            have hmem : (buff ++ [w]).headD dummyWord ∈ buff ++ [w] :=
              headD_mem (buff ++ [w]) dummyWord (by simp)
            exact (List.pairwise_append.mp hsor').2.2 _ hmem next (by simp)
          · exact ihmem s h2
        · rw [hgo]
          refine List.chain'_cons'.mpr ⟨?_, ihchain⟩
          intro b hb
          have hbhead : b = (initial_sentences_go [] (next :: rest)).headD dummySentence := by
            cases hgo' : initial_sentences_go [] (next :: rest) with
            | nil => exact absurd hgo' ihne
            | cons x xs =>
              rw [hgo'] at hb
              simp at hb
              simp [hb, hgo']
          show next.start = (b.words.headD dummyWord).start
          rw [hbhead, ihhead]
          simp
        · rw [hgo, List.getLastD_cons, getLastD_of_ne_nil _ _ dummySentence ihne]
          exact ihlast
      · have hgo : initial_sentences_go buff (w :: next :: rest) =
            initial_sentences_go (buff ++ [w]) (next :: rest) := by
          rw [initial_sentences_go, if_neg hp]
        rcases ih (buff ++ [w]) (by simp) hsor'
          with ⟨ihne, ihhead, ihmem, ihchain, ihlast⟩
        refine ⟨by rw [hgo]; exact ihne, ?_, ?_, ?_, ?_⟩
        · rw [hgo, ihhead, ← List.append_cons]
        · intro s hs
          rw [hgo] at hs
          exact ihmem s hs
        · rw [hgo]
          exact ihchain
        · rw [hgo]
          exact ihlast

/-- C7 (amended): for a non-empty token list sorted non-decreasing in
start time, every sentence produced by `initial_sentences` starts at its
first token's start, each non-final sentence ends exactly at the next
sentence's first token's start, the final sentence ends at its last
token's start plus 800 ms, and every sentence satisfies
`start ≤ endMs` — equality (not the claimed strict `endMs > start_ms`) can
occur when consecutive tokens share a timestamp. -/
theorem initial_sentences_timing (words : List Word)
    (hsorted : List.Pairwise (fun a b => a.start ≤ b.start) words)
    (hne : words ≠ []) :
    ((initial_sentences words).all (fun s => decide (s.words ≠ []) &&
        (decide (s.start = (s.words.headD dummyWord).start) &&
          decide (s.start ≤ s.endMs)))) = true ∧
      List.Chain' (fun a b => a.endMs = (b.words.headD dummyWord).start)
        (initial_sentences words) ∧
      ((initial_sentences words).getLastD dummySentence).endMs =
        (((initial_sentences words).getLastD dummySentence).words.getLastD
          dummyWord).start + 800 := by
  rcases initial_sentences_go_spec words [] hne (by simpa using hsorted)
    with ⟨_, _, hmem, hchain, hlast⟩
  refine ⟨?_, hchain, hlast⟩
  rw [List.all_eq_true]
  intro s hs
  rcases hmem s hs with ⟨h1, h2, h3⟩
  simp only [Bool.and_eq_true, decide_eq_true_eq]
  exact ⟨h1, h2, h3⟩

theorem initial_sentences_timing_witness :
    (List.Pairwise (fun a b : Word => a.start ≤ b.start)
        ([⟨"a.", 0⟩, ⟨"b", 100⟩] : List Word) ∧
      ([⟨"a.", 0⟩, ⟨"b", 100⟩] : List Word) ≠ []) ∧
      (((initial_sentences [⟨"a.", 0⟩, ⟨"b", 100⟩]).all (fun s => decide (s.words ≠ []) &&
          (decide (s.start = (s.words.headD dummyWord).start) &&
            decide (s.start ≤ s.endMs)))) = true ∧
        List.Chain' (fun a b => a.endMs = (b.words.headD dummyWord).start)
          (initial_sentences [⟨"a.", 0⟩, ⟨"b", 100⟩]) ∧
        ((initial_sentences [⟨"a.", 0⟩, ⟨"b", 100⟩]).getLastD dummySentence).endMs =
          (((initial_sentences [⟨"a.", 0⟩, ⟨"b", 100⟩]).getLastD dummySentence).words.getLastD
            dummyWord).start + 800) :=
  by
    have hp : List.Pairwise (fun a b : Word => a.start ≤ b.start)
        [⟨"a.", 0⟩, ⟨"b", 100⟩] := by
      refine List.pairwise_cons.mpr ⟨?_, List.pairwise_singleton _ _⟩
      intro b hb
      rw [List.mem_singleton.mp hb]
      decide
    exact ⟨⟨hp, by decide⟩,
      initial_sentences_timing [⟨"a.", 0⟩, ⟨"b", 100⟩] hp (by decide)⟩

theorem initial_sentences_timing_counterexample :
    initial_sentences [⟨"a.", 0⟩, ⟨"b", 0⟩] =
        [⟨[⟨"a.", 0⟩], 0, 0⟩, ⟨[⟨"b", 0⟩], 0, 800⟩] ∧
      ((initial_sentences [⟨"a.", 0⟩, ⟨"b", 0⟩]).all
        (fun s => decide (s.start < s.endMs))) = false :=
  ⟨by decide, by decide⟩

/- ──────────────── C8 ──────────────── -/

theorem assignGo_spec (perChar : ℚ) :
    ∀ (segs : List String) (cur : ℚ),
      (assignGo perChar cur segs).length = segs.length ∧
        ((assignGo perChar cur segs).headD (cur, cur, "")).1 = cur ∧
        (∀ t ∈ assignGo perChar cur segs,
          t.2.1 = t.1 + (t.2.2.length : ℚ) * perChar) ∧
        List.Chain' (fun a b => a.2.1 = b.1) (assignGo perChar cur segs) := by
  intro segs
  induction segs with
  | nil => intro cur; refine ⟨rfl, rfl, by intro t ht; simp [assignGo] at ht, by simp [assignGo]⟩
  | cons seg rest ih =>
    intro cur
    rcases ih (cur + (seg.length : ℚ) * perChar) with ⟨ihlen, ihhead, ihmem, ihchain⟩
    have hgo : assignGo perChar cur (seg :: rest) =
        (cur, cur + (seg.length : ℚ) * perChar, seg)
          :: assignGo perChar (cur + (seg.length : ℚ) * perChar) rest := rfl
    refine ⟨by rw [hgo]; simp [ihlen], by rw [hgo]; simp, ?_, ?_⟩
    · intro t ht
      rw [hgo] at ht
      rcases List.mem_cons.mp ht with h1 | h2
      · rw [h1]
      · exact ihmem t h2
    · rw [hgo]
      refine List.chain'_cons'.mpr ⟨?_, ihchain⟩
      intro b hb
      cases hgo' : assignGo perChar (cur + (seg.length : ℚ) * perChar) rest with
      | nil => rw [hgo'] at hb; simp at hb
      | cons x xs =>
        rw [hgo'] at hb
        simp at hb
        have hx : x.1 = cur + (seg.length : ℚ) * perChar := by
          have h := ihhead
          rw [hgo'] at h
          exact h
        show cur + (seg.length : ℚ) * perChar = b.1
        rw [← hb, hx]

/-- C8: `assign_time_ranges` returns no fragments (without raising) when
the segments' total character count is zero; with a positive total, each
segment's interval lasts its character count times
`per_char_duration = (end - start) / total_chars`, allocated sequentially
from the interval's start so that each segment's start equals the previous
segment's end. -/
theorem assign_time_ranges_spec (startTime endTime : ℚ) (segments : List String) :
    ((segments.map String.length).sum = 0 →
        assign_time_ranges startTime endTime segments = []) ∧
      (0 < (segments.map String.length).sum →
        (assign_time_ranges startTime endTime segments).length = segments.length ∧
          ((assign_time_ranges startTime endTime segments).headD
            (startTime, startTime, "")).1 = startTime ∧
          ((assign_time_ranges startTime endTime segments).all (fun t =>
            decide (t.2.1 = t.1 + (t.2.2.length : ℚ) *
              ((endTime - startTime) /
                (((segments.map String.length).sum : Nat) : ℚ))))) = true ∧
          List.Chain' (fun a b => a.2.1 = b.1)
            (assign_time_ranges startTime endTime segments)) := by
  constructor
  · intro h0
    unfold assign_time_ranges
    rw [if_pos h0]
  · intro hpos
    have hne : ¬(segments.map String.length).sum = 0 := Nat.pos_iff_ne_zero.mp hpos
    have hatr : assign_time_ranges startTime endTime segments =
        assignGo ((endTime - startTime) / (((segments.map String.length).sum : Nat) : ℚ))
          startTime segments := by
      unfold assign_time_ranges
      rw [if_neg hne]
    rcases assignGo_spec ((endTime - startTime) /
        (((segments.map String.length).sum : Nat) : ℚ)) segments startTime
      with ⟨hlen, hhead, hmem, hchain⟩
    refine ⟨hatr ▸ hlen, hatr ▸ hhead, ?_, hatr ▸ hchain⟩
    rw [hatr, List.all_eq_true]
    intro t ht
    exact decide_eq_true (hmem t ht)

theorem assign_time_ranges_spec_witness :
    ((([" ", ""] : List String).map String.length).sum = 0 →
        assign_time_ranges 5 9 [" ", ""] = []) ∧
      0 < (((["abcd", "abcdef"] : List String).map String.length).sum) ∧
      ((assign_time_ranges 0 1000 ["abcd", "abcdef"]).length =
          (["abcd", "abcdef"] : List String).length ∧
        ((assign_time_ranges 0 1000 ["abcd", "abcdef"]).headD ((0 : ℚ), (0 : ℚ), "")).1 = 0 ∧
        ((assign_time_ranges 0 1000 ["abcd", "abcdef"]).all (fun t =>
          decide (t.2.1 = t.1 + (t.2.2.length : ℚ) *
            ((1000 - 0) /
              ((((["abcd", "abcdef"] : List String).map String.length).sum : Nat) : ℚ))))) = true ∧
        List.Chain' (fun a b => a.2.1 = b.1) (assign_time_ranges 0 1000 ["abcd", "abcdef"])) :=
  ⟨(assign_time_ranges_spec 5 9 [" ", ""]).1,
    by decide,
    (assign_time_ranges_spec 0 1000 ["abcd", "abcdef"]).2 (by decide)⟩

/- ──────────────── C10 ──────────────── -/

/-- C10: `ms_to_srt` renders timestamps modulo 24 hours: the rendering of
any millisecond value equals the rendering of that value reduced modulo
86,400,000 (whole days silently dropped, e.g. 86,400,000 ms renders as
"00:00:00,000"), and below 86,400,000 ms the output is the exact
`HH:MM:SS,mmm` decomposition of the value. -/
theorem ms_to_srt_day_wrap (ms : Nat) :
    ms_to_srt ms = ms_to_srt (ms % 86400000) ∧
      (ms < 86400000 → ms_to_srt ms = srt_spec ms) := by
  constructor
  · have h1 : (ms % 86400000) / 1000 % 86400 = ms / 1000 % 86400 := by omega
    have h2 : (ms % 86400000) % 1000 = ms % 1000 := by omega
    simp only [ms_to_srt]
    rw [h1, h2]
  · intro hlt
    have h3 : ms / 1000 % 86400 / 3600 = ms / 3600000 := by omega
    have h4 : ms / 1000 % 86400 % 3600 / 60 = ms / 60000 % 60 := by omega
    have h5 : ms / 1000 % 86400 % 3600 % 60 = ms / 1000 % 60 := by omega
    simp only [ms_to_srt, srt_spec]
    rw [h3, h4, h5]

theorem ms_to_srt_day_wrap_witness :
    (ms_to_srt 90061001 = ms_to_srt (90061001 % 86400000) ∧
        ms_to_srt (90061001 % 86400000) = ms_to_srt 3661001) ∧
      (3661001 < 86400000 ∧ ms_to_srt 3661001 = srt_spec 3661001) ∧
      ms_to_srt 86400000 = "00:00:00,000" :=
  ⟨⟨(ms_to_srt_day_wrap 90061001).1, by decide⟩,
    ⟨by decide, (ms_to_srt_day_wrap 3661001).2 (by decide)⟩,
    by decide⟩
